import Mathlib

/-!
Verification of the spread-table SHA-256 gadget layer of this repository
(`fil-halo2-gadgets` and friends) against its natural-language specification.

The Rust source is shallowly embedded: pure witness-generation functions become
Lean functions on `Nat` (machine integers are naturals with explicit `% 2^w`
where overflow matters) and on `List Bool` (little-endian bit arrays, as in the
source's `[bool; LEN]` values).  Fallible code (runtime assertions, panicking
conversions) returns `Option`.
-/

namespace FilProofs

/-- Modelled from the spec: little-endian bits-to-integer conversion `lebs2ip`
from the repository's `boolean` module (only its callers are in scope); per the
spec, bit `i` of the array has place value `2^i` ("counting from the little
end"). -/
def lebs2ip : List Bool → Nat
  | [] => 0
  | b :: bs => b.toNat + 2 * lebs2ip bs

/-- Modelled from the spec: integer-to-little-endian-bits conversion `i2lebsp`
from the repository's `boolean` module (only its callers are in scope); returns
the `len` low bits of `n`, least significant first. -/
def i2lebsp : Nat → Nat → List Bool
  | 0, _ => []
  | len + 1, n => decide (n % 2 = 1) :: i2lebsp len (n / 2)

/-- Modelled from the spec: the spread encoding (glossary: "representation of an
n-bit value as a 2n-bit value with each original bit placed at an even position
and 0 at every odd position"), as produced by the spread table rows consumed by
`compression.rs`; bit-array form. -/
def spread_bits : List Bool → List Bool
  | [] => []
  | b :: bs => b :: false :: spread_bits bs

/-- Arithmetic form of the spread encoding: bit `i` of `n` is moved to bit
`2*i`.  Companion of `spread_bits` used to reason about spread sums. -/
def spread (n : Nat) : Nat :=
  if n = 0 then 0 else n % 2 + 4 * spread (n / 2)
decreasing_by exact Nat.div_lt_self (Nat.pos_of_ne_zero (by assumption)) one_lt_two

/-- Arithmetic form of even-bit extraction: keeps the bits of `n` found at even
positions, compacted.  Companion of `even_bits`. -/
def evens (n : Nat) : Nat :=
  if n = 0 then 0 else n % 2 + 2 * evens (n / 4)
decreasing_by exact Nat.div_lt_self (Nat.pos_of_ne_zero (by assumption)) (by norm_num)

/-- Embeds `even_bits` from `fil-halo2-gadgets/src/sha256/table16/util.rs`:
`even_bits[idx] = bits[idx * 2]` for `idx < LEN / 2`. -/
def even_bits (bits : List Bool) : List Bool :=
  (List.range (bits.length / 2)).map fun idx => bits.getD (idx * 2) false

/-- Embeds `odd_bits` from `fil-halo2-gadgets/src/sha256/table16/util.rs`:
`odd_bits[idx] = bits[idx * 2 + 1]` for `idx < LEN / 2`. -/
def odd_bits (bits : List Bool) : List Bool :=
  (List.range (bits.length / 2)).map fun idx => bits.getD (idx * 2 + 1) false

theorem spread_rec (n : Nat) : spread n = n % 2 + 4 * spread (n / 2) := by
  by_cases h : n = 0
  · subst h; rw [spread]; simp [spread]
  · rw [spread]; simp [h]

theorem evens_rec (n : Nat) : evens n = n % 2 + 2 * evens (n / 4) := by
  by_cases h : n = 0
  · subst h; rw [evens]; simp [evens]
  · rw [evens]; simp [h]

theorem spread_zero : spread 0 = 0 := by rw [spread, if_pos rfl]

theorem evens_zero : evens 0 = 0 := by rw [evens, if_pos rfl]

/-- One binary digit of a three-way XOR, in terms of the parities of the
operands: the little-end recurrence of `a ^^^ b ^^^ c`. -/
theorem xor3_rec (a b c : Nat) :
    a ^^^ b ^^^ c = (a % 2 + b % 2 + c % 2) % 2 + 2 * (a / 2 ^^^ b / 2 ^^^ c / 2) := by
  conv_lhs =>
    rw [← Nat.bit_decide_mod_two_eq_one_shiftRight_one a,
      ← Nat.bit_decide_mod_two_eq_one_shiftRight_one b,
      ← Nat.bit_decide_mod_two_eq_one_shiftRight_one c]
  rw [Nat.xor_bit, Nat.xor_bit, Nat.bit_val, Nat.shiftRight_one, Nat.shiftRight_one,
    Nat.shiftRight_one]
  rcases Nat.mod_two_eq_zero_or_one a with ha | ha <;>
    rcases Nat.mod_two_eq_zero_or_one b with hb | hb <;>
      rcases Nat.mod_two_eq_zero_or_one c with hc | hc <;>
        simp [ha, hb, hc] <;> omega

/-- The load-bearing spread identity for three operands (spec section 4.1):
the even bits of an ordinary sum of three spread encodings are the bitwise XOR
of the operands; with only three operands no carry reaches an even position. -/
theorem evens_spread_add3 (a b c : Nat) :
    evens (spread a + spread b + spread c) = a ^^^ b ^^^ c := by
  suffices h : ∀ N a b c : Nat, a + b + c ≤ N →
      evens (spread a + spread b + spread c) = a ^^^ b ^^^ c from
    h (a + b + c) a b c le_rfl
  intro N
  induction N with
  | zero =>
    intro a b c h
    have ha : a = 0 := by omega
    have hb : b = 0 := by omega
    have hc : c = 0 := by omega
    subst ha; subst hb; subst hc
    simp [spread_zero, evens_zero]
  | succ N ih =>
    intro a b c h
    by_cases h0 : a + b + c = 0
    · have ha : a = 0 := by omega
      have hb : b = 0 := by omega
      have hc : c = 0 := by omega
      subst ha; subst hb; subst hc
      simp [spread_zero, evens_zero]
    · have hs : spread a + spread b + spread c =
          (a % 2 + b % 2 + c % 2) + 4 * (spread (a / 2) + spread (b / 2) + spread (c / 2)) := by
        rw [spread_rec a, spread_rec b, spread_rec c]; ring
      have hr : a % 2 + b % 2 + c % 2 ≤ 3 := by omega
      rw [evens_rec, hs]
      have hmod : ((a % 2 + b % 2 + c % 2) +
          4 * (spread (a / 2) + spread (b / 2) + spread (c / 2))) % 2 =
          (a % 2 + b % 2 + c % 2) % 2 := by omega
      have hdiv : ((a % 2 + b % 2 + c % 2) +
          4 * (spread (a / 2) + spread (b / 2) + spread (c / 2))) / 4 =
          spread (a / 2) + spread (b / 2) + spread (c / 2) := by omega
      rw [hmod, hdiv, ih (a / 2) (b / 2) (c / 2) (by omega), xor3_rec a b c]

/-- Two-operand specialization of the spread identity. -/
theorem evens_spread_add2 (a b : Nat) :
    evens (spread a + spread b) = a ^^^ b := by
  have h := evens_spread_add3 a b 0
  simpa [spread_zero] using h

theorem i2lebsp_length (len n : Nat) : (i2lebsp len n).length = len := by
  induction len generalizing n with
  | zero => rfl
  | succ len ih => simp [i2lebsp, ih]

theorem lebs2ip_i2lebsp (len n : Nat) : lebs2ip (i2lebsp len n) = n % 2 ^ len := by
  induction len generalizing n with
  | zero => simp [i2lebsp, lebs2ip, Nat.mod_one]
  | succ len ih =>
    simp only [i2lebsp, lebs2ip, ih]
    rw [Nat.pow_succ', Nat.mod_mul]
    rcases Nat.mod_two_eq_zero_or_one n with h | h <;> simp [h]

theorem lebs2ip_lt (bs : List Bool) : lebs2ip bs < 2 ^ bs.length := by
  induction bs with
  | nil => simp [lebs2ip]
  | cons b bs ih =>
    have hb : b.toNat ≤ 1 := Bool.toNat_le b
    simp only [lebs2ip, List.length_cons, Nat.pow_succ]
    omega

theorem lebs2ip_append (xs ys : List Bool) :
    lebs2ip (xs ++ ys) = lebs2ip xs + 2 ^ xs.length * lebs2ip ys := by
  induction xs with
  | nil => simp [lebs2ip]
  | cons x xs ih =>
    simp only [List.cons_append, lebs2ip, List.length_cons, Nat.pow_succ]
    rw [List.append_eq, ih]
    ring

theorem spread_bits_length (bs : List Bool) : (spread_bits bs).length = 2 * bs.length := by
  induction bs with
  | nil => rfl
  | cons b bs ih => simp [spread_bits, ih]; omega

theorem spread_bits_append (xs ys : List Bool) :
    spread_bits (xs ++ ys) = spread_bits xs ++ spread_bits ys := by
  induction xs with
  | nil => rfl
  | cons x xs ih => simp [spread_bits, ih]

theorem lebs2ip_spread_bits (bs : List Bool) :
    lebs2ip (spread_bits bs) = spread (lebs2ip bs) := by
  induction bs with
  | nil => simp [spread_bits, lebs2ip, spread_zero]
  | cons b bs ih =>
    have hb : b.toNat ≤ 1 := Bool.toNat_le b
    simp only [spread_bits, lebs2ip, ih]
    rw [spread_rec (b.toNat + 2 * lebs2ip bs)]
    have h1 : (b.toNat + 2 * lebs2ip bs) % 2 = b.toNat := by omega
    have h2 : (b.toNat + 2 * lebs2ip bs) / 2 = lebs2ip bs := by omega
    rw [h1, h2]
    simp [spread_bits]
    ring

theorem even_bits_nil : even_bits [] = [] := rfl

theorem even_bits_cons2 (b0 b1 : Bool) (rest : List Bool) :
    even_bits (b0 :: b1 :: rest) = b0 :: even_bits rest := by
  simp only [even_bits, List.length_cons]
  have hlen : (rest.length + 1 + 1) / 2 = rest.length / 2 + 1 := by omega
  rw [hlen, List.range_succ_eq_map, List.map_cons, List.map_map]
  refine congrArg₂ List.cons rfl ?_
  have hfun : ((fun idx => (b0 :: b1 :: rest).getD (idx * 2) false) ∘ (· + 1)) =
      fun idx => rest.getD (idx * 2) false := by
    funext i
    have h2 : (i + 1) * 2 = i * 2 + 1 + 1 := by ring
    simp [Function.comp, h2, List.getD_cons_succ]
  rw [hfun]

/-- Even-bit extraction on even-length bit arrays agrees with the arithmetic
even-bit extraction of the encoded integer. -/
theorem lebs2ip_even_bits (bs : List Bool) (h : bs.length % 2 = 0) :
    lebs2ip (even_bits bs) = evens (lebs2ip bs) := by
  suffices hgen : ∀ N bs, bs.length ≤ N → bs.length % 2 = 0 →
      lebs2ip (even_bits bs) = evens (lebs2ip bs) from hgen bs.length bs le_rfl h
  intro N
  induction N with
  | zero =>
    intro bs hN _
    have : bs = [] := List.eq_nil_of_length_eq_zero (by omega)
    subst this
    simp [even_bits_nil, lebs2ip, evens_zero]
  | succ N ih =>
    intro bs hN hpar
    match bs with
    | [] => simp [even_bits_nil, lebs2ip, evens_zero]
    | [b] => simp at hpar
    | b0 :: b1 :: rest =>
      have h0 : b0.toNat ≤ 1 := Bool.toNat_le b0
      have h1 : b1.toNat ≤ 1 := Bool.toNat_le b1
      rw [even_bits_cons2]
      simp only [lebs2ip]
      have hrest : lebs2ip (even_bits rest) = evens (lebs2ip rest) := by
        apply ih rest (by simp at hN; omega)
        simp at hpar ⊢
        omega
      rw [hrest, evens_rec (b0.toNat + 2 * (b1.toNat + 2 * lebs2ip rest))]
      have hm : (b0.toNat + 2 * (b1.toNat + 2 * lebs2ip rest)) % 2 = b0.toNat := by omega
      have hd : (b0.toNat + 2 * (b1.toNat + 2 * lebs2ip rest)) / 4 = lebs2ip rest := by omega
      rw [hm, hd]

/-- A spread encoding of an `n`-bit value stays below a third of `4 ^ n`, so a
sum of up to three spread encodings fits in `2 * n` bits. -/
theorem spread_bound (n : Nat) : ∀ a, a < 2 ^ n → 3 * spread a < 4 ^ n := by
  induction n with
  | zero =>
    intro a ha
    have : a = 0 := by simpa using Nat.lt_one_iff.mp (by simpa using ha)
    subst this
    simp [spread_zero]
  | succ n ih =>
    intro a ha
    have hdiv : a / 2 < 2 ^ n := by
      rw [Nat.pow_succ] at ha
      omega
    have := ih (a / 2) hdiv
    rw [spread_rec a, Nat.pow_succ]
    omega

theorem i2lebsp_drop (k len n : Nat) :
    (i2lebsp len n).drop k = i2lebsp (len - k) (n / 2 ^ k) := by
  induction k generalizing len n with
  | zero => simp
  | succ k ih =>
    cases len with
    | zero => simp [i2lebsp]
    | succ len =>
      simp only [i2lebsp, List.drop_succ_cons, ih]
      have h1 : len + 1 - (k + 1) = len - k := by omega
      have h2 : n / 2 / 2 ^ k = n / 2 ^ (k + 1) := by
        rw [Nat.div_div_eq_div_mul, Nat.pow_succ']
      rw [h1, h2]

theorem i2lebsp_take (m len n : Nat) :
    (i2lebsp len n).take m = i2lebsp (min m len) n := by
  induction m generalizing len n with
  | zero => simp [i2lebsp]
  | succ m ih =>
    cases len with
    | zero => simp [i2lebsp]
    | succ len =>
      have hmin : min (m + 1) (len + 1) = min m len + 1 := by omega
      rw [hmin]
      simp only [i2lebsp, List.take_succ_cons, ih]

/-- The value of the bit range `[k, k + m)` of the `len`-bit little-endian
decomposition of `n`, as extracted by a Rust slice `bits[k..k+m]`. -/
theorem lebs2ip_chunk (len n k m : Nat) (h : k + m ≤ len) :
    lebs2ip (((i2lebsp len n).drop k).take m) = n / 2 ^ k % 2 ^ m := by
  rw [i2lebsp_drop, i2lebsp_take, lebs2ip_i2lebsp]
  have : min m (len - k) = m := by omega
  rw [this]

theorem chunk_length (len n k m : Nat) :
    ((((i2lebsp len n).drop k).take m)).length = min m (len - k) := by
  simp [List.length_take, List.length_drop, i2lebsp_length]

/-- C3: for all pairs and triples of `n`-bit values, extracting the even bits
of the plain sum of their spread encodings recovers exactly their bitwise XOR;
with at most three operands no carry reaches an even position. -/
theorem spread_xor_identity (n a b c : Nat)
    (ha : a < 2 ^ n) (hb : b < 2 ^ n) (hc : c < 2 ^ n) :
    lebs2ip (even_bits (i2lebsp (2 * n)
        (lebs2ip (spread_bits (i2lebsp n a)) + lebs2ip (spread_bits (i2lebsp n b)))))
      = a ^^^ b ∧
    lebs2ip (even_bits (i2lebsp (2 * n)
        (lebs2ip (spread_bits (i2lebsp n a)) + lebs2ip (spread_bits (i2lebsp n b))
          + lebs2ip (spread_bits (i2lebsp n c)))))
      = a ^^^ b ^^^ c := by
  have hmodA : a % 2 ^ n = a := Nat.mod_eq_of_lt ha
  have hmodB : b % 2 ^ n = b := Nat.mod_eq_of_lt hb
  have hmodC : c % 2 ^ n = c := Nat.mod_eq_of_lt hc
  have hsa : lebs2ip (spread_bits (i2lebsp n a)) = spread a := by
    rw [lebs2ip_spread_bits, lebs2ip_i2lebsp, hmodA]
  have hsb : lebs2ip (spread_bits (i2lebsp n b)) = spread b := by
    rw [lebs2ip_spread_bits, lebs2ip_i2lebsp, hmodB]
  have hsc : lebs2ip (spread_bits (i2lebsp n c)) = spread c := by
    rw [lebs2ip_spread_bits, lebs2ip_i2lebsp, hmodC]
  have hfour : 2 ^ (2 * n) = 4 ^ n := by
    rw [Nat.pow_mul]
  have hba := spread_bound n a ha
  have hbb := spread_bound n b hb
  have hbc := spread_bound n c hc
  have heven : ∀ s : Nat, (i2lebsp (2 * n) s).length % 2 = 0 := by
    intro s
    rw [i2lebsp_length]
    omega
  constructor
  · rw [hsa, hsb, lebs2ip_even_bits _ (heven _), lebs2ip_i2lebsp, hfour,
      Nat.mod_eq_of_lt (by omega), evens_spread_add2]
  · rw [hsa, hsb, hsc, lebs2ip_even_bits _ (heven _), lebs2ip_i2lebsp, hfour,
      Nat.mod_eq_of_lt (by omega), evens_spread_add3]

/-- Witness for `spread_xor_identity` at `n = 3`, `a = 5`, `b = 3`, `c = 6`. -/
theorem spread_xor_identity_witness :
    lebs2ip (even_bits (i2lebsp 6
        (lebs2ip (spread_bits (i2lebsp 3 5)) + lebs2ip (spread_bits (i2lebsp 3 3))
          + lebs2ip (spread_bits (i2lebsp 3 6)))))
      = 5 ^^^ 3 ^^^ 6 :=
  (spread_xor_identity 3 5 3 6 (by decide) (by decide) (by decide)).2

/-- Right rotation of a 32-bit word by `k` bits: the low `k` bits wrap around
to the top.  Used by the spec's ground-truth Σ/σ functions. -/
def rotr32 (w k : Nat) : Nat := w / 2 ^ k + w % 2 ^ k * 2 ^ (32 - k)

/-- SHA-256's `Σ0` mixing function (spec: `rotr(w,2) XOR rotr(w,13) XOR
rotr(w,22)`). -/
def big_sigma_0 (w : Nat) : Nat := rotr32 w 2 ^^^ rotr32 w 13 ^^^ rotr32 w 22

/-- Embeds the `a` piece of `AbcdVar::pieces` (`compression.rs`): bits
`0..2` of the 32-bit word, as the Rust slice `val[Self::a_range()]`. -/
def abcd_a (w : Nat) : List Bool := ((i2lebsp 32 w).drop 0).take 2

/-- Embeds the `b` piece of `AbcdVar::pieces`: bits `2..13`. -/
def abcd_b (w : Nat) : List Bool := ((i2lebsp 32 w).drop 2).take 11

/-- Embeds the `c_lo` piece of `AbcdVar::pieces`: bits `13..16`. -/
def abcd_c_lo (w : Nat) : List Bool := ((i2lebsp 32 w).drop 13).take 3

/-- Embeds the `c_mid` piece of `AbcdVar::pieces`: bits `16..19`. -/
def abcd_c_mid (w : Nat) : List Bool := ((i2lebsp 32 w).drop 16).take 3

/-- Embeds the `c_hi` piece of `AbcdVar::pieces`: bits `19..22`. -/
def abcd_c_hi (w : Nat) : List Bool := ((i2lebsp 32 w).drop 19).take 3

/-- Embeds the `d` piece of `AbcdVar::pieces`: bits `22..32`. -/
def abcd_d (w : Nat) : List Bool := ((i2lebsp 32 w).drop 22).take 10

/-- Embeds `UpperSigmaVar::xor_upper_sigma` (`compression.rs`): chain the four
spread pieces in the three rotated orders, read each 64-bit chain as an
integer (`lebs2ip`), add the three, and return the sum's 64 little-endian
bits (`i2lebsp`). -/
def xor_upper_sigma (sa sb sc sd : List Bool) : List Bool :=
  i2lebsp 64 (lebs2ip (sb ++ sc ++ sd ++ sa) + lebs2ip (sc ++ sd ++ sa ++ sb)
    + lebs2ip (sd ++ sa ++ sb ++ sc))

/-- The `xor_upper_sigma` computation instantiated with `AbcdVar`'s spread
pieces, where `spread_c` is the chain `c_lo ++ c_mid ++ c_hi` exactly as in
`AbcdVar`'s `UpperSigmaVar` implementation. -/
def abcd_xor_upper_sigma (w : Nat) : List Bool :=
  xor_upper_sigma (spread_bits (abcd_a w)) (spread_bits (abcd_b w))
    (spread_bits (abcd_c_lo w) ++ spread_bits (abcd_c_mid w) ++ spread_bits (abcd_c_hi w))
    (spread_bits (abcd_d w))

theorem rotr32_lt (w k : Nat) (hw : w < 2 ^ 32) (hk : k ≤ 32) : rotr32 w k < 2 ^ 32 := by
  have h3 : 2 ^ k * 2 ^ (32 - k) = 2 ^ 32 := by rw [← Nat.pow_add]; congr 1; omega
  have h1 : w / 2 ^ k < 2 ^ (32 - k) := Nat.div_lt_of_lt_mul (by omega)
  have h2 : w % 2 ^ k < 2 ^ k := Nat.mod_lt _ (Nat.pos_pow_of_pos k (by norm_num))
  have h4 : w % 2 ^ k * 2 ^ (32 - k) ≤ (2 ^ k - 1) * 2 ^ (32 - k) :=
    Nat.mul_le_mul_right _ (by omega)
  have h5 : (2 ^ k - 1) * 2 ^ (32 - k) = 2 ^ 32 - 2 ^ (32 - k) := by
    rw [Nat.sub_mul, Nat.one_mul, h3]
  have h7 : w % 2 ^ k * 2 ^ (32 - k) ≤ 2 ^ 32 - 2 ^ (32 - k) := h5 ▸ h4
  have h6 : 0 < 2 ^ (32 - k) := Nat.pos_pow_of_pos _ (by norm_num)
  have h8 : 2 ^ (32 - k) ≤ 2 ^ 32 := Nat.pow_le_pow_right (by norm_num) (by omega)
  rw [rotr32]
  omega

set_option maxHeartbeats 1000000 in
/-- C2: the even-indexed bits of `xor_upper_sigma` applied to the spread
`AbcdVar` pieces (bit ranges of lengths 2, 11, 3, 3, 3, 10 from the little
end) of a 32-bit word `w` equal `Σ0(w) = rotr(w,2) XOR rotr(w,13) XOR
rotr(w,22)`. -/
theorem abcd_xor_upper_sigma_spec (w : Nat) (hw : w < 2 ^ 32) :
    lebs2ip (even_bits (abcd_xor_upper_sigma w)) = big_sigma_0 w := by
  have hA : lebs2ip (abcd_a w) = w % 4 := by
    rw [abcd_a, lebs2ip_chunk 32 w 0 2 (by omega)]; norm_num
  have hB : lebs2ip (abcd_b w) = w / 4 % 2048 := by
    rw [abcd_b, lebs2ip_chunk 32 w 2 11 (by omega)]; norm_num
  have hCl : lebs2ip (abcd_c_lo w) = w / 8192 % 8 := by
    rw [abcd_c_lo, lebs2ip_chunk 32 w 13 3 (by omega)]; norm_num
  have hCm : lebs2ip (abcd_c_mid w) = w / 65536 % 8 := by
    rw [abcd_c_mid, lebs2ip_chunk 32 w 16 3 (by omega)]; norm_num
  have hCh : lebs2ip (abcd_c_hi w) = w / 524288 % 8 := by
    rw [abcd_c_hi, lebs2ip_chunk 32 w 19 3 (by omega)]; norm_num
  have hD : lebs2ip (abcd_d w) = w / 4194304 % 1024 := by
    rw [abcd_d, lebs2ip_chunk 32 w 22 10 (by omega)]; norm_num
  have lA : (abcd_a w).length = 2 := by rw [abcd_a, chunk_length]; omega
  have lB : (abcd_b w).length = 11 := by rw [abcd_b, chunk_length]; omega
  have lCl : (abcd_c_lo w).length = 3 := by rw [abcd_c_lo, chunk_length]; omega
  have lCm : (abcd_c_mid w).length = 3 := by rw [abcd_c_mid, chunk_length]; omega
  have lCh : (abcd_c_hi w).length = 3 := by rw [abcd_c_hi, chunk_length]; omega
  have lD : (abcd_d w).length = 10 := by rw [abcd_d, chunk_length]; omega
  have hw2 : w < 4294967296 := by norm_num at hw; exact hw
  have e1 : w / 4 / 2048 = w / 8192 := by rw [Nat.div_div_eq_div_mul]
  have e2 : w / 8192 / 8 = w / 65536 := by rw [Nat.div_div_eq_div_mul]
  have e3 : w / 65536 / 8 = w / 524288 := by rw [Nat.div_div_eq_div_mul]
  have e4 : w / 524288 / 8 = w / 4194304 := by rw [Nat.div_div_eq_div_mul]
  have e5 : w / 4194304 / 1024 = w / 4294967296 := by rw [Nat.div_div_eq_div_mul]
  have e6 : w / 4294967296 = 0 := Nat.div_eq_of_lt hw2
  have hx0 : lebs2ip (spread_bits (abcd_b w) ++
      (spread_bits (abcd_c_lo w) ++ spread_bits (abcd_c_mid w) ++ spread_bits (abcd_c_hi w)) ++
      spread_bits (abcd_d w) ++ spread_bits (abcd_a w)) = spread (rotr32 w 2) := by
    simp only [← spread_bits_append, lebs2ip_spread_bits]
    refine congrArg spread ?_
    simp [lebs2ip_append, List.length_append, lA, lB, lCl, lCm, lCh, lD,
      hA, hB, hCl, hCm, hCh, hD, rotr32]
    omega
  have hx1 : lebs2ip ((spread_bits (abcd_c_lo w) ++ spread_bits (abcd_c_mid w) ++
      spread_bits (abcd_c_hi w)) ++ spread_bits (abcd_d w) ++ spread_bits (abcd_a w) ++
      spread_bits (abcd_b w)) = spread (rotr32 w 13) := by
    simp only [← spread_bits_append, lebs2ip_spread_bits]
    refine congrArg spread ?_
    simp [lebs2ip_append, List.length_append, lA, lB, lCl, lCm, lCh, lD,
      hA, hB, hCl, hCm, hCh, hD, rotr32]
    omega
  have hx2 : lebs2ip (spread_bits (abcd_d w) ++ spread_bits (abcd_a w) ++
      spread_bits (abcd_b w) ++
      (spread_bits (abcd_c_lo w) ++ spread_bits (abcd_c_mid w) ++ spread_bits (abcd_c_hi w)))
      = spread (rotr32 w 22) := by
    simp only [← spread_bits_append, lebs2ip_spread_bits]
    refine congrArg spread ?_
    simp [lebs2ip_append, List.length_append, lA, lB, lCl, lCm, lCh, lD,
      hA, hB, hCl, hCm, hCh, hD, rotr32]
    omega
  have hb0 := spread_bound 32 (rotr32 w 2) (rotr32_lt w 2 hw (by norm_num))
  have hb1 := spread_bound 32 (rotr32 w 13) (rotr32_lt w 13 hw (by norm_num))
  have hb2 := spread_bound 32 (rotr32 w 22) (rotr32_lt w 22 hw (by norm_num))
  have hsum : spread (rotr32 w 2) + spread (rotr32 w 13) + spread (rotr32 w 22) < 2 ^ 64 := by
    have he : (4 : Nat) ^ 32 = 2 ^ 64 := by norm_num
    omega
  simp only [abcd_xor_upper_sigma, xor_upper_sigma]
  rw [hx0, hx1, hx2, lebs2ip_even_bits _ (by rw [i2lebsp_length]), lebs2ip_i2lebsp,
    Nat.mod_eq_of_lt hsum, evens_spread_add3]
  rw [big_sigma_0]

/-- Witness for `abcd_xor_upper_sigma_spec` at the word `w = 0x6a09e667`. -/
theorem abcd_xor_upper_sigma_spec_witness :
    lebs2ip (even_bits (abcd_xor_upper_sigma 0x6a09e667)) = big_sigma_0 0x6a09e667 :=
  abcd_xor_upper_sigma_spec 0x6a09e667 (by norm_num)

/-- The eight 32-bit words of the SHA-256 compression state `(A..H)`. -/
structure ShaState where
  a : Nat
  b : Nat
  c : Nat
  d : Nat
  e : Nat
  f : Nat
  g : Nat
  h : Nat

/-- SHA-256's `Ch(E,F,G) = (E ∧ F) ⊕ (¬E ∧ G)` on 32-bit words (spec section
4.5 step 3); `¬E` is the 32-bit complement. -/
def ch_fn (e f g : Nat) : Nat := (e &&& f) ^^^ ((e ^^^ 0xFFFFFFFF) &&& g)

/-- SHA-256's `Maj(A,B,C) = (A ∧ B) ⊕ (A ∧ C) ⊕ (B ∧ C)` (spec section 4.5
step 3). -/
def maj_fn (a b c : Nat) : Nat := (a &&& b) ^^^ (a &&& c) ^^^ (b &&& c)

/-- SHA-256's `Σ1` mixing function: `rotr(e,6) XOR rotr(e,11) XOR rotr(e,25)`. -/
def big_sigma_1 (e : Nat) : Nat := rotr32 e 6 ^^^ rotr32 e 11 ^^^ rotr32 e 25

/-- SHA-256's message-schedule `σ0`: `rotr(x,7) XOR rotr(x,18) XOR shr(x,3)`. -/
def small_sigma_0 (x : Nat) : Nat := rotr32 x 7 ^^^ rotr32 x 18 ^^^ x / 2 ^ 3

/-- SHA-256's message-schedule `σ1`: `rotr(x,17) XOR rotr(x,19) XOR shr(x,10)`. -/
def small_sigma_1 (x : Nat) : Nat := rotr32 x 17 ^^^ rotr32 x 19 ^^^ x / 2 ^ 10

/-- Modelled from the spec: one compression round of `subregion_main` (only
the orchestrator `CompressionConfig::compress` is in scope), following spec
section 4.5 steps 4-6: `H' = H + Ch(E,F,G) + Σ1(E) + K_t + W_t`,
`A_new = H' + Σ0(A) + Maj(A,B,C)`, `E_new = D + H'` (each mod `2^32`), then
the shift `(A,B,C,D,E,F,G,H) := (A_new, A, B, C, E_new, E, F, G)`. -/
def compression_round (st : ShaState) (k w : Nat) : ShaState :=
  let hp := (st.h + ch_fn st.e st.f st.g + big_sigma_1 st.e + k + w) % 2 ^ 32
  let anew := (hp + big_sigma_0 st.a + maj_fn st.a st.b st.c) % 2 ^ 32
  let enew := (st.d + hp) % 2 ^ 32
  ⟨anew, st.a, st.b, st.c, enew, st.e, st.f, st.g⟩

/-- Modelled from the spec: the fixed 8-word SHA-256 initialization vector
`IV`, a compiled-in public constant of the `table16` module (spec section 6). -/
def IV : List Nat :=
  [0x6a09e667, 0xbb67ae85, 0x3c6ef372, 0xa54ff53a,
   0x510e527f, 0x9b05688c, 0x1f83d9ab, 0x5be0cd19]

/-- Modelled from the spec: SHA-256's 64 public round constants `K_t`
(spec section 6), compiled-in constants of the `table16` module; written in
decimal. -/
def ROUND_CONSTANTS : List Nat :=
  [1116352408, 1899447441, 3049323471, 3921009573,
   961987163, 1508970993, 2453635748, 2870763221,
   3624381080, 310598401, 607225278, 1426881987,
   1925078388, 2162078206, 2614888103, 3248222580,
   3835390401, 4022224774, 264347078, 604807628,
   770255983, 1249150122, 1555081692, 1996064986,
   2554220882, 2821834349, 2952996808, 3210313671,
   3336571891, 3584528711, 113926993, 338241895,
   666307205, 773529912, 1294757372, 1396182291,
   1695183700, 1986661051, 2177026350, 2456956037,
   2730485921, 2820302411, 3259730800, 3345764771,
   3516065817, 3600352804, 4094571909, 275423344,
   430227734, 506948616, 659060556, 883997877,
   958139571, 1322822218, 1537002063, 1747873779,
   1955562222, 2024104815, 2227730452, 2361852424,
   2428436474, 2756734187, 3204031479, 3329325298]

/-- Modelled from the spec: the message-schedule expansion (the
message-schedule gadget is out of scope; spec section 8.6 supplies its output
"per NIST test vectors"): repeatedly append
`W_t = σ1(W_(t-2)) + W_(t-7) + σ0(W_(t-15)) + W_(t-16) mod 2^32`. -/
def expand_message_schedule (ws : List Nat) : Nat → List Nat
  | 0 => ws
  | n + 1 =>
    expand_message_schedule
      (ws ++ [(small_sigma_1 (ws.getD (ws.length - 2) 0) + ws.getD (ws.length - 7) 0
        + small_sigma_0 (ws.getD (ws.length - 15) 0) + ws.getD (ws.length - 16) 0) % 2 ^ 32]) n

/-- Modelled from the spec: the padded one-block message for the standard test
vector `"abc"` (spec section 8.6), whose 16 words seed the message schedule
produced by `msg_schedule_test_input`. -/
def abc_message_block : List Nat :=
  0x61626380 :: (List.replicate 14 0 ++ [0x18])

/-- The 64 message-schedule words `W_0..W_63` for the `"abc"` test vector. -/
def abc_schedule : List Nat := expand_message_schedule abc_message_block 48

/-- The state initialized from the fixed IV, as `initialize_with_iv` does. -/
def iv_state : ShaState :=
  ⟨0x6a09e667, 0xbb67ae85, 0x3c6ef372, 0xa54ff53a,
   0x510e527f, 0x9b05688c, 0x1f83d9ab, 0x5be0cd19⟩

/-- Embeds `CompressionConfig::compress` (`compression.rs`): fold the round
assignment over the 64 `(K_t, W_t)` pairs starting from an initialized state. -/
def compress_rounds (st : ShaState) (kws : List (Nat × Nat)) : ShaState :=
  kws.foldl (fun s kw => compression_round s kw.1 kw.2) st

/-- The compression state after round 63 of the `"abc"` test vector. -/
def abc_final_state : ShaState :=
  compress_rounds iv_state (ROUND_CONSTANTS.zip abc_schedule)

/-- The eight state slots in order `A..H`. -/
def state_words (st : ShaState) : List Nat :=
  [st.a, st.b, st.c, st.d, st.e, st.f, st.g, st.h]

/-- Modelled from the spec: `COMPRESSION_OUTPUT` of `compression_util` (only
its use in the `compress` test is in scope), "the published SHA-256 digest of
`abc`" (spec section 8.6). -/
def COMPRESSION_OUTPUT : List Nat :=
  [0xba7816bf, 0x8f01cfea, 0x414140de, 0x5dae2223,
   0xb00361a3, 0x96177a9c, 0xb410ff61, 0xf20015ad]

/-- The claimed digest semantics: each returned digest word is the state
slot's value plus the corresponding original IV word mod `2^32`. -/
def digest_per_claim (st : ShaState) : List Nat :=
  List.zipWith (fun s iv => (s + iv) % 2 ^ 32) (state_words st) IV

/-- The assertion of the in-source `compress` test (`compression.rs` lines
993-999): for each slot, `(digest_word + IV[idx]) as u32` equals
`COMPRESSION_OUTPUT[idx]`. -/
def compress_test_assertion (digest : List Nat) : Prop :=
  ∀ idx, idx < 8 → (digest.getD idx 0 + IV.getD idx 0) % 2 ^ 32
    = COMPRESSION_OUTPUT.getD idx 0

instance (digest : List Nat) : Decidable (compress_test_assertion digest) :=
  Nat.decidableBallLT 8 fun idx _ =>
    (digest.getD idx 0 + IV.getD idx 0) % 2 ^ 32 = COMPRESSION_OUTPUT.getD idx 0

/-- C1 counterexample: if `digest` really added the IV into each returned
word, the in-source `compress` test (which adds the IV again) would fail on
the `"abc"` final state: already its first word would differ from the
published digest word. -/
theorem digest_adds_iv_contradicts_compress_test :
    ¬ compress_test_assertion (digest_per_claim abc_final_state) := by
  decide

/-- C1 amended: the digest operation returns each of the 8 state slots' 32-bit
values unchanged, without the IV addition; it is the consumer (here the
`compress` test) that adds the original IV word mod `2^32` to each digest word
to obtain the published compression output. -/
theorem digest_without_iv_satisfies_compress_test (idx : Nat) (hidx : idx < 8) :
    ((state_words abc_final_state).getD idx 0 + IV.getD idx 0) % 2 ^ 32
      = COMPRESSION_OUTPUT.getD idx 0 := by
  revert idx
  decide

/-- Witness for `digest_without_iv_satisfies_compress_test` at slot 0. -/
theorem digest_without_iv_satisfies_compress_test_witness :
    ((state_words abc_final_state).getD 0 0 + IV.getD 0 0) % 2 ^ 32
      = COMPRESSION_OUTPUT.getD 0 0 :=
  digest_without_iv_satisfies_compress_test 0 (by norm_num)

theorem getD_range_map {α : Type} (m j : Nat) (f : Nat → α) (d : α) (hj : j < m) :
    (((List.range m).map f)).getD j d = f j := by
  simp [List.getD, List.getElem?_map, List.getElem?_range hj]

theorem getD_take_drop {α : Type} (l : List α) (a b k : Nat) (d : α) (hk : k < b) :
    ((l.drop a).take b).getD k d = l.getD (a + k) d := by
  simp [List.getD, List.getElem?_take, List.getElem?_drop, hk]

/-- Embeds one halving pass of `SelectChip::select` (`select.rs`): for the
current index bit, every output cell `j` is
`out[j] = bit ? arr[half + j] : arr[j]` (the `pick from pair` gate). -/
def select_halve {α : Type} [Inhabited α] (bit : Bool) (arr : List α) : List α :=
  (List.range (arr.length / 2)).map fun j =>
    if bit then arr.getD (arr.length / 2 + j) default else arr.getD j default

/-- Embeds the pass loop of `SelectChip::select`: the bits are consumed from
the most significant down (`index_bits.iter().rev()`), halving the array once
per bit. -/
def select_passes {α : Type} [Inhabited α] : List Bool → List α → List α
  | [], arr => arr
  | b :: rest, arr => select_passes rest (select_halve b arr)

/-- Embeds `SelectChip::select`: asserts `arr.len() == 1 << num_bits`
(`Option` models the assertion), runs the passes MSB-first, and returns the
single remaining element. -/
def select {α : Type} [Inhabited α] (arr : List α) (index_bits : List Bool) : Option α :=
  if arr.length = 2 ^ index_bits.length then
    some ((select_passes index_bits.reverse arr).getD 0 default)
  else none

/-- The value of a bit list read most-significant-bit first. -/
def msb_val : List Bool → Nat
  | [] => 0
  | b :: rest => b.toNat * 2 ^ rest.length + msb_val rest

theorem msb_val_lt (bs : List Bool) : msb_val bs < 2 ^ bs.length := by
  induction bs with
  | nil => simp [msb_val]
  | cons b rest ih =>
    have hb : b.toNat ≤ 1 := Bool.toNat_le b
    simp only [msb_val, List.length_cons, Nat.pow_succ]
    have h2 : b.toNat * 2 ^ rest.length ≤ 2 ^ rest.length := by
      cases b <;> simp
    omega

theorem msb_val_append_bit (bs : List Bool) (b : Bool) :
    msb_val (bs ++ [b]) = 2 * msb_val bs + b.toNat := by
  induction bs with
  | nil => simp [msb_val]
  | cons x rest ih =>
    simp only [List.cons_append, msb_val, ih, List.append_eq, List.length_append,
      List.length_cons, List.length_nil, Nat.pow_succ]
    ring

theorem lebs2ip_eq_msb_val_reverse (bs : List Bool) :
    lebs2ip bs = msb_val bs.reverse := by
  induction bs with
  | nil => simp [lebs2ip, msb_val]
  | cons b rest ih =>
    simp only [lebs2ip, List.reverse_cons, msb_val_append_bit, ih]
    ring

theorem select_halve_length {α : Type} [Inhabited α] (bit : Bool) (arr : List α) :
    (select_halve bit arr).length = arr.length / 2 := by
  simp [select_halve]

theorem select_halve_getD {α : Type} [Inhabited α] (bit : Bool) (arr : List α) (j : Nat)
    (hj : j < arr.length / 2) :
    (select_halve bit arr).getD j default
      = arr.getD (bit.toNat * (arr.length / 2) + j) default := by
  rw [select_halve, getD_range_map _ _ _ _ hj]
  cases bit <;> simp

theorem select_passes_getD {α : Type} [Inhabited α] :
    ∀ (rbits : List Bool) (arr : List α), arr.length = 2 ^ rbits.length →
      (select_passes rbits arr).getD 0 default = arr.getD (msb_val rbits) default := by
  intro rbits
  induction rbits with
  | nil => intro arr _; simp [select_passes, msb_val]
  | cons b rest ih =>
    intro arr h
    have hhalf : arr.length / 2 = 2 ^ rest.length := by
      rw [h, List.length_cons, Nat.pow_succ]
      omega
    have hlen2 : (select_halve b arr).length = 2 ^ rest.length := by
      rw [select_halve_length, hhalf]
    rw [select_passes, ih _ hlen2,
      select_halve_getD b arr (msb_val rest) (by rw [hhalf]; exact msb_val_lt rest)]
    rw [hhalf, msb_val]

/-- C4: for every array whose length is `2^k` and every list of `k`
little-endian index bits encoding index `i`, `select` returns `array[i]`. -/
theorem select_spec {α : Type} [Inhabited α] (arr : List α) (index_bits : List Bool)
    (h : arr.length = 2 ^ index_bits.length) :
    select arr index_bits = some (arr.getD (lebs2ip index_bits) default) := by
  rw [select, if_pos h]
  have hrev : arr.length = 2 ^ index_bits.reverse.length := by
    rw [List.length_reverse]; exact h
  rw [select_passes_getD index_bits.reverse arr hrev, ← lebs2ip_eq_msb_val_reverse]

/-- Witness for `select_spec`: a length-4 array with index bits `[1,0]`
(index 1). -/
theorem select_spec_witness :
    select [10, 20, 30, 40] [true, false] = some (20 : Nat) := by
  have h := select_spec [10, 20, 30, 40] [true, false] (by decide)
  simpa [lebs2ip] using h

/-- The canonical 32-byte little-endian representation of a field element
(`F::to_repr` in `uint32.rs`), with the field element embedded as its integer
value: byte `j` is `v / 2^(8j) % 2^8`. -/
def field_le_bytes (v : Nat) : List Nat :=
  (List.range 32).map fun j => v / 2 ^ (8 * j) % 2 ^ 8

/-- Embeds Rust's `u32::from_le_bytes` on a 4-byte slice. -/
def u32_from_le_bytes (bytes : List Nat) : Nat :=
  bytes.getD 0 0 + 2 ^ 8 * bytes.getD 1 0 + 2 ^ 16 * bytes.getD 2 0 + 2 ^ 24 * bytes.getD 3 0

/-- Embeds `U32DecompChip::witness_decompose` / `assign_u32s` (`uint32.rs`):
limb `i` is `u32::from_le_bytes(le_bytes[i*4..(i+1)*4])` of the field
element's canonical little-endian bytes. -/
def witness_decompose (v : Nat) : List Nat :=
  (List.range 8).map fun i => u32_from_le_bytes (((field_le_bytes v).drop (4 * i)).take 4)

/-- Embeds `U32DecompChip::pack` (`uint32.rs`): reassemble the limbs' bytes
into a 32-byte representation and parse it with `from_repr_vartime`, which
yields the represented integer when it is a canonical field element (below the
modulus `p`) and panics otherwise (`Option` models the panic). -/
def pack (p : Nat) (limbs : List Nat) : Option Nat :=
  let packed := ((List.range 8).map fun i => limbs.getD i 0 * 2 ^ (32 * i)).sum
  if packed < p then some packed else none

/-- Base-`B` digit recomposition: summing the first `m` base-`B` digits of `v`
scaled by their place values recovers `v mod B^m`. -/
theorem digits_recompose (B : Nat) : ∀ (m v : Nat),
    (((List.range m).map fun i => v / B ^ i % B * B ^ i)).sum = v % B ^ m := by
  intro m
  induction m with
  | zero => intro v; simp [Nat.mod_one]
  | succ m ih =>
    intro v
    rw [List.range_succ, List.map_append, List.sum_append, ih v]
    simp only [List.map_cons, List.map_nil, List.sum_cons, List.sum_nil]
    have h1 := Nat.mod_mul (x := v) (a := B ^ m) (b := B)
    have h2 : B ^ m * (v / B ^ m % B) = v / B ^ m % B * B ^ m := Nat.mul_comm _ _
    rw [Nat.pow_succ]
    omega

theorem witness_decompose_limb (v : Nat) (i : Nat) (hi : i < 8) :
    (witness_decompose v).getD i 0 = v / 2 ^ (32 * i) % 2 ^ 32 := by
  rw [witness_decompose, getD_range_map _ _ _ _ hi]
  have hbyte : ∀ k, k < 4 → (((field_le_bytes v).drop (4 * i)).take 4).getD k 0
      = v / 2 ^ (32 * i) / 2 ^ (8 * k) % 2 ^ 8 := by
    intro k hk
    rw [getD_take_drop _ _ _ _ _ hk, field_le_bytes, getD_range_map _ _ _ _ (by omega),
      Nat.div_div_eq_div_mul, ← Nat.pow_add]
    rw [show 8 * (4 * i + k) = 32 * i + 8 * k from by ring]
  rw [u32_from_le_bytes, hbyte 0 (by norm_num), hbyte 1 (by norm_num),
    hbyte 2 (by norm_num), hbyte 3 (by norm_num)]
  have e1 : v / 2 ^ (32 * i) / 2 ^ 0 = v / 2 ^ (32 * i) := by norm_num
  have e2 : v / 2 ^ (32 * i) / 2 ^ 8 / 2 ^ 8 = v / 2 ^ (32 * i) / 2 ^ 16 := by
    rw [Nat.div_div_eq_div_mul, ← Nat.pow_add]
  have e3 : v / 2 ^ (32 * i) / 2 ^ 16 / 2 ^ 8 = v / 2 ^ (32 * i) / 2 ^ 24 := by
    rw [Nat.div_div_eq_div_mul, ← Nat.pow_add]
  have e4 : v / 2 ^ (32 * i) / 2 ^ 24 / 2 ^ 8 = v / 2 ^ (32 * i) / 2 ^ 32 := by
    rw [Nat.div_div_eq_div_mul, ← Nat.pow_add]
  have h1 := Nat.div_add_mod (v / 2 ^ (32 * i)) (2 ^ 8)
  have h2 := Nat.div_add_mod (v / 2 ^ (32 * i) / 2 ^ 8) (2 ^ 8)
  have h3 := Nat.div_add_mod (v / 2 ^ (32 * i) / 2 ^ 16) (2 ^ 8)
  have h4 := Nat.div_add_mod (v / 2 ^ (32 * i) / 2 ^ 24) (2 ^ 8)
  have h5 := Nat.div_add_mod (v / 2 ^ (32 * i)) (2 ^ 32)
  norm_num at e1 e2 e3 e4 h1 h2 h3 h4 h5 ⊢
  omega

/-- C5: for every field element `v` of a field with 32-byte representation
(modulus `p ≤ 2^256`), decomposing `v` into eight 32-bit little-endian limbs
and packing the limbs returns exactly `v`. -/
theorem pack_witness_decompose (p v : Nat) (hp : p ≤ 2 ^ 256) (hv : v < p) :
    pack p (witness_decompose v) = some v := by
  have hlimbs : ((List.range 8).map fun i => (witness_decompose v).getD i 0 * 2 ^ (32 * i))
      = (List.range 8).map fun i => v / (2 ^ 32) ^ i % 2 ^ 32 * (2 ^ 32) ^ i := by
    apply List.map_congr_left
    intro i hi
    have hi8 : i < 8 := List.mem_range.mp hi
    rw [witness_decompose_limb v i hi8, ← Nat.pow_mul]
  have hsum := digits_recompose (2 ^ 32) 8 v
  rw [pack]
  simp only [hlimbs, hsum]
  have hv256 : v % (2 ^ 32) ^ 8 = v := by
    apply Nat.mod_eq_of_lt
    have : (2 ^ 32 : Nat) ^ 8 = 2 ^ 256 := by norm_num
    omega
  rw [hv256, if_pos hv]

/-- Witness for `pack_witness_decompose` over the Pallas base field at the
boundary values `v = 0` and `v = p - 1`. -/
theorem pack_witness_decompose_witness :
    pack 0x40000000000000000000000000000000224698fc094cf91b992d30ed00000001
        (witness_decompose 0x40000000000000000000000000000000224698fc094cf91b992d30ed00000000)
      = some 0x40000000000000000000000000000000224698fc094cf91b992d30ed00000000 ∧
    pack 0x40000000000000000000000000000000224698fc094cf91b992d30ed00000001
        (witness_decompose 0) = some 0 :=
  ⟨pack_witness_decompose _ _ (by norm_num) (by norm_num),
   pack_witness_decompose _ _ (by norm_num) (by norm_num)⟩


/-- Embeds `StripBitsChip::strip_bits` (`uint32.rs`): the stripped witness
value is `val & mask` with `mask = (1 << 30) - 1 =
0b00111111_11111111_11111111_11111111`. -/
def strip_bits (u : Nat) : Nat := u &&& (2 ^ 30 - 1)

/-- C6: `strip_bits` computes `u &&& 0x3FFFFFFF`: it clears exactly bits 30
and 31 of the 32-bit input and leaves bits 0 through 29 unchanged. -/
theorem strip_bits_spec (u : Nat) (hu : u < 2 ^ 32) :
    strip_bits u = u &&& 0x3FFFFFFF ∧
    (∀ i, i < 30 → (strip_bits u).testBit i = u.testBit i) ∧
    (strip_bits u).testBit 30 = false ∧
    (strip_bits u).testBit 31 = false := by
  refine ⟨by norm_num [strip_bits], ?_, ?_, ?_⟩
  · intro i hi
    rw [strip_bits, Nat.testBit_and, Nat.testBit_two_pow_sub_one]
    simp [hi]
  · rw [strip_bits, Nat.testBit_and, Nat.testBit_two_pow_sub_one]
    simp
  · rw [strip_bits, Nat.testBit_and, Nat.testBit_two_pow_sub_one]
    simp

/-- Witness for `strip_bits_spec` at `u = 0xFFFFFFFF`. -/
theorem strip_bits_spec_witness :
    strip_bits 0xFFFFFFFF = 0xFFFFFFFF &&& 0x3FFFFFFF ∧
    (strip_bits 0xFFFFFFFF).testBit 31 = false :=
  ⟨(strip_bits_spec 0xFFFFFFFF (by norm_num)).1,
   (strip_bits_spec 0xFFFFFFFF (by norm_num)).2.2.2⟩

/-- Embeds `sum_with_carry` (`util.rs`): the `u16` halves are summed in `u64`
arithmetic (wrapping mod `2^64`), combined as `lo + (1 << 16) * hi`, and split
into the low 32 bits (`sum as u32`) and the carry (`sum >> 32`). -/
def sum_with_carry (words : List (Nat × Nat)) : Nat × Nat :=
  let sum_lo := (words.map Prod.fst).sum % 2 ^ 64
  let sum_hi := (words.map Prod.snd).sum % 2 ^ 64
  let sum := (sum_lo + 2 ^ 16 * sum_hi) % 2 ^ 64
  (sum % 2 ^ 32, sum / 2 ^ 32)

theorem sum_map_lo_hi (words : List (Nat × Nat)) :
    (words.map fun w => w.1 + 2 ^ 16 * w.2).sum
      = (words.map Prod.fst).sum + 2 ^ 16 * (words.map Prod.snd).sum := by
  induction words with
  | nil => simp
  | cons w ws ih =>
    simp only [List.map_cons, List.sum_cons, ih]
    ring

theorem sum_le_of_forall_lt (l : List Nat) (B : Nat) (h : ∀ x ∈ l, x < B) :
    l.sum ≤ l.length * (B - 1) := by
  induction l with
  | nil => simp
  | cons x xs ih =>
    have hx := h x (List.mem_cons_self x xs)
    have ihx := ih fun y hy => h y (List.mem_cons_of_mem x hy)
    simp only [List.sum_cons, List.length_cons]
    have hmul : (xs.length + 1) * (B - 1) = xs.length * (B - 1) + (B - 1) := by ring
    omega

/-- Evaluation form of `sum_with_carry` given the two component sums. -/
theorem sum_with_carry_eval (words : List (Nat × Nat)) (L H : Nat)
    (hL : (words.map Prod.fst).sum = L) (hH : (words.map Prod.snd).sum = H) :
    sum_with_carry words = (((L % 2 ^ 64 + 2 ^ 16 * (H % 2 ^ 64)) % 2 ^ 64) % 2 ^ 32,
        ((L % 2 ^ 64 + 2 ^ 16 * (H % 2 ^ 64)) % 2 ^ 64) / 2 ^ 32) := by
  rw [sum_with_carry, hL, hH]

/-- C7 counterexample: a list of `2^48` pairs of 16-bit values on which the
`u64` accumulator of `sum_with_carry` wraps, so the returned `(sum, carry)`
no longer satisfies `sum + 2^32 * carry = exact total`. -/
theorem sum_with_carry_u64_overflow :
    (∀ w ∈ List.replicate (2 ^ 48) ((0 : Nat), (1 : Nat)), w.1 < 2 ^ 16 ∧ w.2 < 2 ^ 16) ∧
    (sum_with_carry (List.replicate (2 ^ 48) (0, 1))).1
        + 2 ^ 32 * (sum_with_carry (List.replicate (2 ^ 48) (0, 1))).2
      ≠ ((List.replicate (2 ^ 48) ((0 : Nat), (1 : Nat))).map fun w => w.1 + 2 ^ 16 * w.2).sum := by
  constructor
  · intro w hw
    rw [List.eq_of_mem_replicate hw]
    norm_num
  · have hlo : ((List.replicate (2 ^ 48) ((0 : Nat), (1 : Nat))).map Prod.fst).sum = 0 := by
      rw [List.map_replicate, List.sum_replicate]
      simp
    have hhi : ((List.replicate (2 ^ 48) ((0 : Nat), (1 : Nat))).map Prod.snd).sum = 2 ^ 48 := by
      rw [List.map_replicate, List.sum_replicate]
      simp
    have hrhs : ((List.replicate (2 ^ 48) ((0 : Nat), (1 : Nat))).map
        fun w => w.1 + 2 ^ 16 * w.2).sum = 2 ^ 64 := by
      rw [List.map_replicate, List.sum_replicate, smul_eq_mul]
      show (2 : Nat) ^ 48 * ((0 : Nat) + 2 ^ 16 * 1) = 2 ^ 64
      norm_num
    rw [sum_with_carry_eval _ 0 (2 ^ 48) hlo hhi, hrhs]
    norm_num

/-- C7 amended: whenever the exact total fits the 64-bit accumulator — in
particular for every operand list of at most `2^32` pairs of 16-bit values —
`sum_with_carry` returns `(s, c)` with `s + 2^32 * c` equal to the exact sum
of `lo_i + 2^16 * hi_i` and `s < 2^32`. -/
theorem sum_with_carry_spec (words : List (Nat × Nat))
    (hlen : words.length ≤ 2 ^ 32)
    (hw : ∀ w ∈ words, w.1 < 2 ^ 16 ∧ w.2 < 2 ^ 16) :
    (sum_with_carry words).1 + 2 ^ 32 * (sum_with_carry words).2
      = (words.map fun w => w.1 + 2 ^ 16 * w.2).sum ∧
    (sum_with_carry words).1 < 2 ^ 32 := by
  have hlo : ∀ x ∈ words.map Prod.fst, x < 2 ^ 16 := by
    intro x hx
    obtain ⟨w, hw1, rfl⟩ := List.mem_map.mp hx
    exact (hw w hw1).1
  have hhi : ∀ x ∈ words.map Prod.snd, x < 2 ^ 16 := by
    intro x hx
    obtain ⟨w, hw1, rfl⟩ := List.mem_map.mp hx
    exact (hw w hw1).2
  have hL := sum_le_of_forall_lt _ _ hlo
  have hH := sum_le_of_forall_lt _ _ hhi
  rw [List.length_map] at hL hH
  have hmul : words.length * (2 ^ 16 - 1) ≤ 2 ^ 32 * (2 ^ 16 - 1) :=
    Nat.mul_le_mul_right _ hlen
  have hc1 : (2 : Nat) ^ 32 * (2 ^ 16 - 1) = 281470681743360 := by norm_num
  rw [hc1] at hmul
  simp only [sum_with_carry, sum_map_lo_hi]
  constructor <;> omega

/-- Witness for `sum_with_carry_spec` at `[(0xFFFF, 0xFFFF), (1, 2)]`. -/
theorem sum_with_carry_spec_witness :
    (sum_with_carry [((0xFFFF : Nat), (0xFFFF : Nat)), (1, 2)]).1
        + 2 ^ 32 * (sum_with_carry [((0xFFFF : Nat), (0xFFFF : Nat)), (1, 2)]).2
      = (([((0xFFFF : Nat), (0xFFFF : Nat)), (1, 2)]).map fun w => w.1 + 2 ^ 16 * w.2).sum :=
  (sum_with_carry_spec [(0xFFFF, 0xFFFF), (1, 2)] (by norm_num)
    (by intro w hw; fin_cases hw <;> norm_num)).1

/-- Modelled from the spec: the `SECTOR_NODES_32_GIB` constant of
`halo2::constants` (only its use in `window.rs` is in scope): the node count
of a 32 GiB sector, its byte size divided by the 32-byte node size. -/
def SECTOR_NODES_32_GIB : Nat := 2 ^ 30

/-- Modelled from the spec: the `SECTOR_NODES_64_GIB` constant of
`halo2::constants`: the node count of a 64 GiB sector. -/
def SECTOR_NODES_64_GIB : Nat := 2 ^ 31

/-- Embeds `challenged_sector_count` (`window.rs`): a `match` on the
sector-node count returning the hardcoded per-tier counts with a fallback
of 2 for unlisted tiers. -/
def challenged_sector_count (sector_nodes : Nat) : Nat :=
  if sector_nodes = SECTOR_NODES_32_GIB then 2349
  else if sector_nodes = SECTOR_NODES_64_GIB then 2300
  else 2

/-- C8: `challenged_sector_count` returns 2349 at `SECTOR_NODES_32_GIB`, 2300
at `SECTOR_NODES_64_GIB`, and the fallback 2 at every other node count. -/
theorem challenged_sector_count_spec (n : Nat) :
    challenged_sector_count SECTOR_NODES_32_GIB = 2349 ∧
    challenged_sector_count SECTOR_NODES_64_GIB = 2300 ∧
    (n ≠ SECTOR_NODES_32_GIB → n ≠ SECTOR_NODES_64_GIB → challenged_sector_count n = 2) := by
  refine ⟨?_, ?_, ?_⟩
  · rw [challenged_sector_count, if_pos rfl]
  · rw [challenged_sector_count,
      if_neg (by norm_num [SECTOR_NODES_32_GIB, SECTOR_NODES_64_GIB]), if_pos rfl]
  · intro h1 h2
    rw [challenged_sector_count, if_neg h1, if_neg h2]

/-- Witness for `challenged_sector_count_spec` at the unlisted tier
`n = 1024`. -/
theorem challenged_sector_count_spec_witness :
    challenged_sector_count 1024 = 2 :=
  (challenged_sector_count_spec 1024).2.2
    (by norm_num [SECTOR_NODES_32_GIB]) (by norm_num [SECTOR_NODES_64_GIB])

/-- Embeds `negate_spread` (`util.rs`): asserts the array length is even and
every odd-position entry is `false` (`Option` models the assertions), and
negates each even-position entry, keeping the odd positions. -/
def negate_spread : List Bool → Option (List Bool)
  | [] => some []
  | [_] => none
  | e :: o :: rest =>
    if o then none
    else (negate_spread rest).map fun r => (!e) :: o :: r

/-- C9: on every even-length array whose odd positions are all `false`,
`negate_spread` succeeds, negating exactly the even positions and keeping the
odd positions `false`; on an input with a `true` odd-position entry
(`[false, true]`) its assertion fails. -/
theorem negate_spread_spec (arr : List Bool)
    (hlen : arr.length % 2 = 0)
    (hodd : ∀ i, i < arr.length → i % 2 = 1 → arr.getD i false = false) :
    (∃ out, negate_spread arr = some out ∧ out.length = arr.length ∧
      (∀ i, i < arr.length → i % 2 = 0 → out.getD i false = !(arr.getD i false)) ∧
      (∀ i, i < arr.length → i % 2 = 1 → out.getD i false = false)) ∧
    negate_spread [false, true] = none := by
  have hgen : ∀ N (arr : List Bool), arr.length ≤ N → arr.length % 2 = 0 →
      (∀ i, i < arr.length → i % 2 = 1 → arr.getD i false = false) →
      ∃ out, negate_spread arr = some out ∧ out.length = arr.length ∧
        (∀ i, i < arr.length → i % 2 = 0 → out.getD i false = !(arr.getD i false)) ∧
        (∀ i, i < arr.length → i % 2 = 1 → out.getD i false = false) := by
    intro N
    induction N with
    | zero =>
      intro arr hN _ _
      have harr : arr = [] := List.eq_nil_of_length_eq_zero (by omega)
      subst harr
      exact ⟨[], rfl, rfl, fun i hi _ => by simp at hi, fun i hi _ => by simp at hi⟩
    | succ N ih =>
      intro arr hN hpar hodd2
      match arr with
      | [] =>
        exact ⟨[], rfl, rfl, fun i hi _ => by simp at hi, fun i hi _ => by simp at hi⟩
      | [b] => simp at hpar
      | e :: o :: rest =>
        have ho : o = false := by
          have h1 := hodd2 1 (by simp only [List.length_cons]; omega) (by norm_num)
          simpa using h1
        subst ho
        have hrest := ih rest (by simp only [List.length_cons] at hN ⊢; omega)
          (by simp only [List.length_cons] at hpar ⊢; omega)
          (by
            intro i hi hip
            have h2 := hodd2 (i + 2) (by simp only [List.length_cons] at hi ⊢; omega)
              (by omega)
            simpa [List.getD_cons_succ] using h2)
        obtain ⟨out, hsome, hlen2, heven, hodd3⟩ := hrest
        refine ⟨(!e) :: false :: out, ?_, ?_, ?_, ?_⟩
        · simp [negate_spread, hsome]
        · simp [hlen2]
        · intro i hi hip
          cases i with
          | zero => simp
          | succ i =>
            cases i with
            | zero => omega
            | succ i =>
              simp only [List.getD_cons_succ]
              have hi2 : i < rest.length := by
                simp only [List.length_cons] at hi
                omega
              exact heven i hi2 (by omega)
        · intro i hi hip
          cases i with
          | zero => omega
          | succ i =>
            cases i with
            | zero => simp
            | succ i =>
              simp only [List.getD_cons_succ]
              have hi2 : i < rest.length := by
                simp only [List.length_cons] at hi
                omega
              exact hodd3 i hi2 (by omega)
  exact ⟨hgen arr.length arr le_rfl hlen hodd, rfl⟩

/-- Witness for `negate_spread_spec`: succeeds on the valid spread `[true,
false]` and its assertion fails on `[false, true]`. -/
theorem negate_spread_spec_witness :
    (negate_spread [true, false]).isSome = true ∧ negate_spread [false, true] = none := by
  have h := negate_spread_spec [true, false] (by norm_num) (by decide)
  obtain ⟨⟨out, hsome, -, -, -⟩, hnone⟩ := h
  exact ⟨by rw [hsome]; rfl, hnone⟩

/-- Embeds `Sha256Domain::trim_to_fr32` (`sha256.rs`): clear the two most
significant bits of the last byte, `state[31] &= 0b0011_1111`. -/
def trim_to_fr32 (state : List Nat) : List Nat :=
  state.set 31 (state.getD 31 0 &&& 0x3F)

/-- Embeds the `finalize` path, `Algorithm::hash` for `Sha256Function`
(`sha256.rs`): the (externally computed) raw SHA-256 digest is copied and
trimmed with `trim_to_fr32`. -/
def sha256_algorithm_hash (raw_digest : List Nat) : List Nat := trim_to_fr32 raw_digest

/-- Embeds `HashFunction::hash` for `Sha256Function`: `Sha256::digest(data)`
(external) followed by `trim_to_fr32`. -/
def sha256_hash (raw_digest : List Nat) : List Nat := trim_to_fr32 raw_digest

/-- Embeds `HashFunction::hash2` for `Sha256Function`: the chained SHA-256 of
two domain values (external) followed by `trim_to_fr32`. -/
def sha256_hash2 (raw_digest : List Nat) : List Nat := trim_to_fr32 raw_digest

/-- C10: every 32-byte digest returned by the `hash`, `hash2` and
finalize-path functions has the top two bits of its most significant byte
cleared: `state[31] &&& 0b1100_0000 = 0`, so the digest fits in 254 bits. -/
theorem sha256_digest_trimmed (raw : List Nat) (hlen : raw.length = 32) :
    (sha256_algorithm_hash raw).getD 31 0 &&& 0xC0 = 0 ∧
    (sha256_hash raw).getD 31 0 &&& 0xC0 = 0 ∧
    (sha256_hash2 raw).getD 31 0 &&& 0xC0 = 0 := by
  have key : (trim_to_fr32 raw).getD 31 0 &&& 0xC0 = 0 := by
    have h31 : (31 : Nat) < raw.length := by omega
    have hget : (trim_to_fr32 raw).getD 31 0 = raw.getD 31 0 &&& 0x3F := by
      rw [trim_to_fr32]
      simp [List.getD, List.getElem?_set_self h31]
    rw [hget, Nat.and_assoc, show ((0x3F : Nat) &&& 0xC0) = 0 from rfl, Nat.and_zero]
  exact ⟨key, key, key⟩

/-- Witness for `sha256_digest_trimmed` on the all-ones raw digest. -/
theorem sha256_digest_trimmed_witness :
    (sha256_hash (List.replicate 32 255)).getD 31 0 &&& 0xC0 = 0 :=
  (sha256_digest_trimmed (List.replicate 32 255) (by simp)).2.1

end FilProofs
